import Mathlib

/-!
Verification development for the `limo` library (src/mod.ts): a managed file
handle that parses a file into a typed value on construction and writes the
current value back on disposal, with a comment-preserving JSONC adapter.

The handle lifecycle (`resolveOptions`, `LimoFile._read`, `LimoFile._write`,
the `data` getter/setter and the factory functions) is embedded from
src/mod.ts.  Exceptions are modelled by `Except` with an error type whose
constructors tag the code's throw sites and carry the exact message strings
the code builds.  File contents are modelled as `Option String` (the content
of the single path a handle owns; `none` means the path does not exist).

External collaborators (the JSON/TOML/YAML codecs and the jsonc-parser edit
layer) are not part of the repository; their models are marked
`Modelled from the spec:` and are restricted to the fragments the claims
exercise.
-/

/-- JavaScript values as far as this development needs them: `null`, booleans,
numbers (the modelled fragment uses integer numerals only), strings, arrays
and objects.  An object is an insertion-ordered association list; JavaScript
objects have unique keys. -/
inductive JValue where
  | null : JValue
  | bool : Bool → JValue
  | num : Int → JValue
  | str : String → JValue
  | arr : List JValue → JValue
  | obj : List (String × JValue) → JValue

/-- A JavaScript object at top level: insertion-ordered fields with unique keys. -/
abbrev JObj := List (String × JValue)

/-- `Object.keys` on a top-level object. -/
def objKeys (o : JObj) : List String := o.map Prod.fst

/-- `Object.hasOwn(o, k)`. -/
def hasOwn (o : JObj) (k : String) : Bool := o.any (fun kv => kv.1 == k)

/-- JavaScript `v == null` for `JValue` (true exactly at `null`; the model's
`Option` wrapper plays the part of `undefined`). -/
def jvIsNull : JValue → Bool
  | .null => true
  | _ => false

/-- JavaScript strings are never `== null`. -/
def strIsNull : String → Bool := fun _ => false

/-- The whitespace set of JavaScript `String.prototype.trim`. -/
def jsWhitespaceChar (c : Char) : Bool :=
  c ∈ [' ', '\t', '\n', '\r', Char.ofNat 11, Char.ofNat 12,
       Char.ofNat 160, Char.ofNat 0x2028, Char.ofNat 0x2029, Char.ofNat 0xFEFF]

/-- Model of JavaScript `text.trim()` (drop leading and trailing whitespace). -/
def jsTrim (s : String) : String :=
  String.mk (((s.data.dropWhile jsWhitespaceChar).reverse.dropWhile jsWhitespaceChar).reverse)

/-- The format-adapter record (`ParseOptions` in src/mod.ts): `parse` may throw
(`Except`), `stringify` is total, `preserveFormat` is an optional capability. -/
structure ParseOptions (T : Type) where
  parse : String → Except String T
  stringify : T → String
  preserveFormat : Option (String → T → T → String)

/-- Caller-facing options (`Options` in src/mod.ts); every field may be omitted. -/
structure OptionsT (T : Type) where
  validator : Option (T → Bool)
  allowNoExist : Option Bool
  allowValidatorFailure : Option Bool

/-- `ResolvedOptions`: `allowNoExist` defaulted, the others passed through. -/
structure ResolvedOptionsT (T : Type) where
  validator : Option (T → Bool)
  allowNoExist : Bool
  allowValidatorFailure : Option Bool

/-- Embedding of `resolveOptions` (src/mod.ts:26-34): `allowNoExist ?? true`,
`validator` and `allowValidatorFailure` passed through unchanged. -/
def resolveOptions {T : Type} (o : OptionsT T) : ResolvedOptionsT T :=
  ⟨o.validator, o.allowNoExist.getD true, o.allowValidatorFailure⟩

/-- Errors thrown during construction.  The TypeScript code throws untyped
`Error`s; each constructor here tags one logical throw origin and carries the
exact message the code builds.  Note that the validator-rejection throw at
src/mod.ts:94 happens inside the `try` block, so the `catch` at line 97
re-wraps it: its final message is the `Failed to parse` wrapper around
`Invalid data: <text>`, which the `validationFailure` payload records. -/
inductive LimoError where
  | notFound : String → LimoError
  | parseFailure : String → LimoError
  | validationFailure : String → LimoError
deriving DecidableEq

/-- The mutable fields of the handle (`#data`, `#oldData`, `#text` of class
`LimoFile` in src/mod.ts); `none` models JavaScript `undefined`.  The path,
options and adapter are construction parameters threaded explicitly. -/
structure LimoFile (T : Type) where
  data : Option T
  oldData : Option T
  text : Option String

/-- Embedding of `LimoFile._read` (src/mod.ts:80-105): existence check, blank
short-circuit, parse, validator gate.  Returns the `{ data, text }` pair. -/
def limoRead {T : Type} (po : ParseOptions T) (opts : ResolvedOptionsT T)
    (path : String) (fs : Option String) :
    Except LimoError (Option T × Option String) :=
  match fs with
  | some text =>
    if jsTrim text = "" then
      .ok (none, some text)
    else
      match po.parse text with
      | .ok d =>
        match opts.validator with
        | some validate =>
          if validate d then .ok (some d, some text)
          else if opts.allowValidatorFailure.getD false then .ok (none, some text)
          else .error (.validationFailure
            ("Failed to parse " ++ path ++ ": Error: Invalid data: " ++ text))
        | none => .ok (some d, some text)
      | .error e => .error (.parseFailure ("Failed to parse " ++ path ++ ": " ++ e))
  | none =>
    if opts.allowNoExist then .ok (none, none)
    else .error (.notFound ("File not found: " ++ path))

/-- Embedding of the `LimoFile` constructor (src/mod.ts:56-66): resolve the
options, read, and set `#data = #oldData = data`, `#text = text`. -/
def limoOpen {T : Type} (po : ParseOptions T) (opts : OptionsT T)
    (path : String) (fs : Option String) : Except LimoError (LimoFile T) :=
  match limoRead po (resolveOptions opts) path fs with
  | .ok (d, t) => .ok ⟨d, d, t⟩
  | .error e => .error e

/-- Embedding of the `data` setter (src/mod.ts:76-78): replace `#data` only. -/
def LimoFile.setData {T : Type} (st : LimoFile T) (v : T) : LimoFile T :=
  { st with data := some v }

/-- The `content` computation of `LimoFile._write` (src/mod.ts:112-125):
`preserveFormat` is used exactly when the adapter defines it and both `#text`
and `#oldData` are non-nullish; otherwise `stringify`.  `isNull` models the
JavaScript `== null` test on values of `T`. -/
def writeContent {T : Type} (po : ParseOptions T) (isNull : T → Bool)
    (text : Option String) (oldData : Option T) (v : T) : String :=
  match po.preserveFormat with
  | some pf =>
    match text, oldData with
    | some t, some old => if isNull old then po.stringify v else pf t old v
    | _, _ => po.stringify v
  | none => po.stringify v

/-- Embedding of `LimoFile._write` run at disposal (src/mod.ts:107-130): skip
when `#data == null` (JavaScript nullish: `undefined` or `null`), otherwise
write the computed content, replacing the file.  The write itself is modelled
as the new file-system state; the `WriteFailure` wrapper is not modelled since
every adapter in scope is total. -/
def LimoFile.dispose {T : Type} (isNull : T → Bool) (po : ParseOptions T)
    (st : LimoFile T) (fs : Option String) : Option String :=
  match st.data with
  | none => fs
  | some v =>
    if isNull v then fs
    else some (writeContent po isNull st.text st.oldData v)

/-- The absent-then-set scenario: open a missing path with default options,
set the data to `v`, dispose; the result is the final file-system state
(opening a missing path with default options never fails, so the error arm is
unreachable). -/
def absentThenSet {T : Type} (po : ParseOptions T) (isNull : T → Bool)
    (path : String) (v : T) : Option String :=
  match limoOpen po ⟨none, none, none⟩ path none with
  | .error _ => none
  | .ok st => LimoFile.dispose isNull po (st.setData v) none

/-- The round-trip scenario: open a missing path with default options, set the
data to `v`, dispose, reopen the written file and return its parsed data. -/
def freshPipeline {T : Type} (po : ParseOptions T) (isNull : T → Bool)
    (path : String) (v : T) : Except LimoError (Option T) :=
  match limoOpen po ⟨none, none, none⟩ path (absentThenSet po isNull path v) with
  | .error e => .error e
  | .ok st2 => .ok st2.data

/-- Embedding of the text adapter of `createLimoText` (src/mod.ts:196-199):
`parse` is the identity (never fails), `stringify` is the identity, no
`preserveFormat`. -/
def textPO : ParseOptions String :=
  ⟨fun text => .ok text, fun d => d, none⟩

/-- JSON grammar whitespace (used by the fragment parsers). -/
def jsonWsChar (c : Char) : Bool := c ∈ [' ', '\t', '\n', '\r']

/-- Skip grammar whitespace. -/
def skipWs (l : List Char) : List Char := l.dropWhile jsonWsChar

/-- Escaping of one character inside a JSON string literal (the modelled
fragment covers the quote, backslash and the common control characters). -/
def jsonEscapeChar (c : Char) : List Char :=
  if c = '"' then ['\\', '"']
  else if c = '\\' then ['\\', '\\']
  else if c = '\n' then ['\\', 'n']
  else if c = '\r' then ['\\', 'r']
  else if c = '\t' then ['\\', 't']
  else [c]

/-- A JSON string literal. -/
def jsonQuote (s : String) : List Char :=
  '"' :: s.data.flatMap jsonEscapeChar ++ ['"']

mutual

/-- Modelled from the spec: `JSON.stringify(value, null, 2)` (external
`JSON.stringify`), the serializer of `createLimoJson` and `createLimoJsonc`
(src/mod.ts:281,365).  `ind` is the current indentation level. -/
def jsonStringifyV : Nat → JValue → List Char
  | _, .null => ['n', 'u', 'l', 'l']
  | _, .bool true => ['t', 'r', 'u', 'e']
  | _, .bool false => ['f', 'a', 'l', 's', 'e']
  | _, .num n => (toString n).data
  | _, .str s => jsonQuote s
  | _, .arr [] => ['[', ']']
  | ind, .arr (x :: xs) =>
    '[' :: '\n' :: (jsonStringifyElems (ind + 1) x xs ++
      '\n' :: List.replicate (2 * ind) ' ' ++ [']'])
  | _, .obj [] => ['{', '}']
  | ind, .obj ((k, v) :: fs) =>
    '{' :: '\n' :: (jsonStringifyFields (ind + 1) k v fs ++
      '\n' :: List.replicate (2 * ind) ' ' ++ ['}'])
termination_by ind v => sizeOf v
decreasing_by all_goals simp_wf <;> omega

/-- Array elements, one per line at indentation `ind`. -/
def jsonStringifyElems : Nat → JValue → List JValue → List Char
  | ind, x, [] => List.replicate (2 * ind) ' ' ++ jsonStringifyV ind x
  | ind, x, y :: ys =>
    List.replicate (2 * ind) ' ' ++ jsonStringifyV ind x ++
      ',' :: '\n' :: jsonStringifyElems ind y ys
termination_by ind x xs => sizeOf x + sizeOf xs
decreasing_by all_goals simp_wf <;> omega

/-- Object fields, one per line at indentation `ind`. -/
def jsonStringifyFields : Nat → String → JValue → List (String × JValue) → List Char
  | ind, k, v, [] =>
    List.replicate (2 * ind) ' ' ++ jsonQuote k ++ ':' :: ' ' :: jsonStringifyV ind v
  | ind, k, v, (k2, v2) :: gs =>
    List.replicate (2 * ind) ' ' ++ jsonQuote k ++ ':' :: ' ' :: jsonStringifyV ind v ++
      ',' :: '\n' :: jsonStringifyFields ind k2 v2 gs
termination_by ind k v fs => sizeOf v + sizeOf fs
decreasing_by all_goals simp_wf <;> omega

end

/-- `JSON.stringify(v, null, 2)` as a `String`. -/
def jsonStringify (v : JValue) : String := String.mk (jsonStringifyV 0 v)

/-- Parse a quoted string (no escapes: the modelled fragment's strings contain
neither quotes nor backslashes). -/
def pQuoted : List Char → Option (String × List Char)
  | '"' :: r =>
    (match r.dropWhile (fun c => c != '"') with
      | '"' :: rest => some (String.mk (r.takeWhile (fun c => c != '"')), rest)
      | _ => none)
  | _ => none

/-- Parse one `"key": "value"` pair. -/
def pJEntry (l : List Char) : Option ((String × String) × List Char) :=
  match pQuoted (skipWs l) with
  | some (k, r) =>
    match skipWs r with
    | ':' :: r2 =>
      match pQuoted (skipWs r2) with
      | some (v, r3) => some ((k, v), r3)
      | none => none
    | _ => none
  | none => none

/-- Parse `"k": "v" (, "k": "v")* }`, returning the pairs and the rest after
the closing brace.  `fuel` bounds the recursion; callers pass the input length. -/
def pJLoop : Nat → List Char → Option (List (String × String) × List Char)
  | 0, _ => none
  | fuel + 1, l =>
    match pJEntry l with
    | some (kv, r) =>
      match skipWs r with
      | ',' :: r2 =>
        match pJLoop fuel r2 with
        | some (rest, r3) => some (kv :: rest, r3)
        | none => none
      | '}' :: r2 => some ([kv], r2)
      | _ => none
    | none => none

/-- A flat map of strings as a JavaScript object value. -/
def objOf (m : List (String × String)) : JValue :=
  .obj (m.map (fun kv => (kv.1, .str kv.2)))

/-- Modelled from the spec: `JSON.parse` (external), the parser of
`createLimoJson` (src/mod.ts:280), restricted to the flat string-mapping
fragment the round-trip property exercises; all other inputs report a parse
error. -/
def jsonParseStr (s : String) : Except String JValue :=
  match skipWs s.data with
  | '{' :: r =>
    (match skipWs r with
      | '}' :: r2 =>
        if (skipWs r2).isEmpty then .ok (.obj []) else .error ("Unexpected token")
      | _ =>
        match pJLoop (r.length + 1) r with
        | some (m, r2) =>
          if (skipWs r2).isEmpty then .ok (objOf m) else .error ("Unexpected token")
        | none => .error ("Unexpected token"))
  | _ => .error ("Unexpected token")

/-- Modelled from the spec: `jsonc_parser.parse` (external), the parser of
`createLimoJsonc` (src/mod.ts:364).  On comment-free JSON it agrees with
`JSON.parse`; comments and its error tolerance are outside the modelled
fragment. -/
def jsoncParseStr (s : String) : Except String JValue := jsonParseStr s

/-- Rendering of one TOML value (modelled fragment: strings, integers,
booleans; nested tables, arrays and the null case are outside the fragment). -/
def tomlRenderValue : JValue → List Char
  | .str s => '"' :: s.data ++ ['"']
  | .num n => (toString n).data
  | .bool true => ['t', 'r', 'u', 'e']
  | .bool false => ['f', 'a', 'l', 's', 'e']
  | .null => []
  | .arr _ => []
  | .obj _ => []

/-- Modelled from the spec: `std_toml.stringify` (external), the serializer of
`createLimoToml` (src/mod.ts:446), restricted to flat tables: one
`key = value` line per field (the TOML writer-literal property:
`{hello: "world"}` becomes `hello = "world"\n`); the empty table renders as
the empty string. -/
def tomlStringify : JValue → String
  | .obj fs => String.mk (fs.flatMap (fun kv => kv.1.data ++ ' ' :: '=' :: ' ' :: (tomlRenderValue kv.2 ++ ['\n'])))
  | _ => ""

/-- Parse `key = "value"` lines.  `fuel` bounds the recursion. -/
def pTomlLoop : Nat → List Char → Option (List (String × String))
  | 0, _ => none
  | fuel + 1, l =>
    match l with
    | [] => some []
    | _ =>
      if (l.takeWhile Char.isAlpha).isEmpty then none
      else
        match (l.dropWhile Char.isAlpha).dropWhile (fun c => c == ' ') with
        | '=' :: r =>
          match pQuoted (r.dropWhile (fun c => c == ' ')) with
          | some (v, r2) =>
            (match r2 with
              | '\n' :: r3 =>
                match pTomlLoop fuel r3 with
                | some rest => some ((String.mk (l.takeWhile Char.isAlpha), v) :: rest)
                | none => none
              | [] => some [(String.mk (l.takeWhile Char.isAlpha), v)]
              | _ => none)
          | none => none
        | _ => none

/-- Modelled from the spec: `std_toml.parse` (external), the parser of
`createLimoToml` (src/mod.ts:445), restricted to flat tables of basic strings
with bare alphabetic keys; all other inputs report a parse error. -/
def tomlParseStr (s : String) : Except String JValue :=
  match pTomlLoop (s.data.length + 1) s.data with
  | some m => .ok (objOf m)
  | none => .error ("Invalid TOML")

/-- Plain scalars the YAML schema resolves to `true`. -/
def yamlTrueWords : List String :=
  ["true", "True", "TRUE", "yes", "Yes", "YES", "on", "On", "ON", "y", "Y"]

/-- Plain scalars the YAML schema resolves to `false`. -/
def yamlFalseWords : List String :=
  ["false", "False", "FALSE", "no", "No", "NO", "off", "Off", "OFF", "n", "N"]

/-- Plain scalars the YAML schema resolves to null. -/
def yamlNullWords : List String := ["null", "Null", "NULL", "~", ""]

/-- Resolution of a plain YAML scalar (modelled fragment: booleans, null and
strings; numeric scalars are outside the fragment). -/
def yamlScalarOf (s : String) : JValue :=
  if yamlTrueWords.contains s then .bool true
  else if yamlFalseWords.contains s then .bool false
  else if yamlNullWords.contains s then .null
  else .str s

/-- Rendering of one YAML value in plain style (modelled fragment: strings
that need no quoting, integers, booleans, null). -/
def yamlRenderValue : JValue → List Char
  | .str s => s.data
  | .num n => (toString n).data
  | .bool true => ['t', 'r', 'u', 'e']
  | .bool false => ['f', 'a', 'l', 's', 'e']
  | .null => ['n', 'u', 'l', 'l']
  | .arr _ => []
  | .obj _ => []

/-- Modelled from the spec: `std_yaml.stringify` (external), the serializer of
`createLimoYaml` (src/mod.ts:504), restricted to flat mappings in plain style:
one `key: value` line per field (`{hello: "world"}` becomes `hello: world\n`);
the empty mapping renders as a flow mapping. -/
def yamlStringify : JValue → String
  | .obj [] => String.mk ['{', '}', '\n']
  | .obj fs => String.mk (fs.flatMap (fun kv => kv.1.data ++ ':' :: ' ' :: (yamlRenderValue kv.2 ++ ['\n'])))
  | _ => ""

/-- Parse `key: value` lines into raw string pairs.  `fuel` bounds the
recursion. -/
def pYamlLoop : Nat → List Char → Option (List (String × String))
  | 0, _ => none
  | fuel + 1, l =>
    match l with
    | [] => some []
    | _ =>
      if (l.takeWhile (fun c => c != ':' && c != '\n')).isEmpty then none
      else
        match l.dropWhile (fun c => c != ':' && c != '\n') with
        | ':' :: ' ' :: r =>
          (match r.dropWhile (fun c => c != '\n') with
            | '\n' :: r2 =>
              match pYamlLoop fuel r2 with
              | some rest =>
                some ((String.mk (l.takeWhile (fun c => c != ':' && c != '\n')),
                  String.mk (r.takeWhile (fun c => c != '\n'))) :: rest)
              | none => none
            | _ =>
              some [(String.mk (l.takeWhile (fun c => c != ':' && c != '\n')),
                String.mk (r.takeWhile (fun c => c != '\n')))])
        | _ => none

/-- Modelled from the spec: `std_yaml.parse` (external), the parser of
`createLimoYaml` (src/mod.ts:503), restricted to flat block mappings of plain
scalars; all other inputs report a parse error. -/
def yamlParseStr (s : String) : Except String JValue :=
  match pYamlLoop (s.data.length + 1) s.data with
  | some m => .ok (.obj (m.map (fun kv => (kv.1, yamlScalarOf kv.2))))
  | none => .error ("Invalid YAML")

/-- The adapter of `createLimoJson` (src/mod.ts:277-284): JSON parse/stringify,
no `preserveFormat`. -/
def jsonPO : ParseOptions JValue := ⟨jsonParseStr, jsonStringify, none⟩

/-- The adapter of `createLimoJsonc` (src/mod.ts:361-391): jsonc parse, JSON
stringify, and a `preserveFormat`.  The preservation algorithm is analyzed on
the spec-modelled document layer below; its string-level behavior is
irrelevant to every property proved here (a fresh handle never has original
text), so it is a parameter. -/
def jsoncPO (pf : String → JValue → JValue → String) : ParseOptions JValue :=
  ⟨jsoncParseStr, jsonStringify, some pf⟩

/-- The adapter of `createLimoToml` (src/mod.ts:442-449). -/
def tomlPO : ParseOptions JValue := ⟨tomlParseStr, tomlStringify, none⟩

/-- The adapter of `createLimoYaml` (src/mod.ts:500-507). -/
def yamlPO : ParseOptions JValue := ⟨yamlParseStr, yamlStringify, none⟩

/-- Nonempty and purely alphabetic. -/
def plainAlpha (s : String) : Bool := !s.isEmpty && s.data.all Char.isAlpha

/-- Strings of the exactly-representable fragment shared by all built-in
formats: plain alphabetic words that no YAML schema rule resolves to a
non-string scalar. -/
def safeStr (s : String) : Bool :=
  plainAlpha s && !(yamlTrueWords.contains s) && !(yamlFalseWords.contains s) &&
    !(yamlNullWords.contains s)

/-- Modelled from the spec: one top-level property of a JSONC document as the
jsonc-parser edit layer (external library) sees it.  `trivia` abstracts the
comments and incidental whitespace attached to the property; the formatting
normalization pass only rewrites whitespace, which this abstraction does not
track further. -/
structure JEntry where
  key : String
  val : JValue
  trivia : String

/-- A JSONC document with a top-level object: its properties in textual order. -/
abbrev JDoc := List JEntry

/-- Whether the document has a property named `k`. -/
def docHasKey (d : JDoc) (k : String) : Bool := d.any (fun e => e.key == k)

/-- The value `jsonc_parser.parse` reads from a document (top-level mapping;
for the well-formed documents considered here keys are unique, so this is the
plain field list). -/
def docToObj (d : JDoc) : JObj := d.map (fun e => (e.key, e.val))

/-- Modelled from the spec: a single text edit of the jsonc-parser edit layer,
lifted to the document abstraction — deletion of a property, in-place
replacement of an existing property's value, or insertion of a new property
at the end of the object. -/
inductive JEdit where
  | del : String → JEdit
  | rep : String → JValue → JEdit
  | ins : String → JValue → JEdit

/-- The top-level key an edit touches. -/
def JEdit.key : JEdit → String
  | .del k => k
  | .rep k _ => k
  | .ins k _ => k

/-- Whether the edit inserts a new property (at the end of the object). -/
def JEdit.isIns : JEdit → Bool
  | .ins _ _ => true
  | _ => false

/-- Modelled from the spec: `jsonc_parser.modify(text, [key], value, {})`
(external library) — compute, against the given document, the edit that sets
the top-level property `key` to `value` (an upsert: replacement when present,
insertion at the end when absent), or removes it when `value` is `undefined`
(`none`; removing an absent property yields no edit). -/
def jsoncModify (doc : JDoc) (k : String) (v : Option JValue) : List JEdit :=
  match v with
  | none => if docHasKey doc k then [.del k] else []
  | some v => if docHasKey doc k then [.rep k v] else [.ins k v]

/-- Application of one edit to a document.  A deletion removes the property
together with its attached trivia; a replacement keeps position and trivia and
swaps the value wholesale; an insertion appends a fresh property with empty
trivia. -/
def applyJEdit (doc : JDoc) : JEdit → JDoc
  | .del k => doc.filter (fun e => e.key != k)
  | .rep k v => doc.map (fun e => if e.key == k then { e with val := v } else e)
  | .ins k v => doc ++ [⟨k, v, ""⟩]

/-- Modelled from the spec: `jsonc_parser.applyEdits(text, edits)` (external
library) — apply a batch of edits computed against the same original text.
For batches whose edits touch pairwise distinct keys (the only batches the
algorithm produces) offset-based batch application coincides with sequential
application in list order: replacement and deletion spans are disjoint, and
simultaneous end-of-object insertions land in list order. -/
def applyJEdits (doc : JDoc) (es : List JEdit) : JDoc := es.foldl applyJEdit doc

/-- Modelled from the spec: the final `format` + `applyEdits` normalization
pass (src/mod.ts:384-387) — it rewrites whitespace only, preserving comments,
keys, values and their order, hence the identity at this abstraction. -/
def jsoncFormatPass (doc : JDoc) : JDoc := doc

/-- Embedding of the `preserveFormat` closure of `createLimoJsonc`
(src/mod.ts:366-388) over the document abstraction: collect one deletion edit
per top-level key of `oldData` absent from `newData` (the `?? {}` guard on
`oldData` is vacuous here since `oldData` is a mapping), one upsert edit per
entry of `newData`, all computed against the original text; apply the flat
batch; run the formatting pass. -/
def jsoncPreserveFormat (oldText : JDoc) (oldData newData : JObj) : JDoc :=
  let deletions := (objKeys oldData).flatMap
    (fun k => if hasOwn newData k then [] else jsoncModify oldText k none)
  let upserts := newData.flatMap (fun kv => jsoncModify oldText kv.1 (some kv.2))
  jsoncFormatPass (applyJEdits oldText (deletions ++ upserts))

/-- A constant preservation function, used as a concrete custom-format input
(the custom-format extension point supplies `parse`/`stringify`/
`preserveFormat` directly from the caller). -/
def constPF (s : String) : String → JValue → JValue → String := fun _ _ _ => s

/-- C5: if `currentValue` is absent at disposal time, disposal performs no
filesystem write — the file-system state is returned untouched. -/
theorem c5_absent_skips_write {T : Type} (isNull : T → Bool) (po : ParseOptions T)
    (st : LimoFile T) (fs : Option String) (h : st.data = none) :
    LimoFile.dispose isNull po st fs = fs := by
  unfold LimoFile.dispose
  rw [h]

/-- Witness for C5 at a handle opened on a missing path and never given data. -/
theorem c5_witness :
    (⟨none, none, none⟩ : LimoFile String).data = none ∧
    LimoFile.dispose strIsNull textPO ⟨none, none, none⟩ none = none :=
  ⟨rfl, c5_absent_skips_write strIsNull textPO ⟨none, none, none⟩ none rfl⟩

/-- C10: for a type admitting `null`, setting the data to a null value and
disposing performs no filesystem write at all — the `== null` write-skip
check treats the null value like the absent marker, so the file-system state
(existent or not) is untouched. -/
theorem c10_null_write_skipped {T : Type} (isNull : T → Bool) (po : ParseOptions T)
    (st : LimoFile T) (fs : Option String) (v : T) (h : isNull v = true) :
    LimoFile.dispose isNull po (st.setData v) fs = fs := by
  unfold LimoFile.dispose LimoFile.setData
  simp [h]

/-- Witness for C10: a JSON handle on a missing file given `null` writes
nothing, and one on an existing file leaves its content alone. -/
theorem c10_witness :
    jvIsNull JValue.null = true ∧
    LimoFile.dispose jvIsNull jsonPO
      (LimoFile.setData ⟨none, none, none⟩ JValue.null) none = none ∧
    LimoFile.dispose jvIsNull jsonPO
      (LimoFile.setData ⟨none, none, some ("old")⟩ JValue.null) (some ("old")) = some ("old") :=
  ⟨rfl, c10_null_write_skipped jvIsNull jsonPO ⟨none, none, none⟩ none JValue.null rfl,
    c10_null_write_skipped jvIsNull jsonPO ⟨none, none, some ("old")⟩ (some ("old")) JValue.null rfl⟩

/-- C9: on a missing path, construction fails with the `NotFound` error
exactly when `allowNoExist` is `false`; otherwise (including the omitted
case, whose resolved default is `true`) the handle opens with absent
`currentValue` and absent `originalText`. -/
theorem c9_missing_file {T : Type} (po : ParseOptions T) (opts : OptionsT T) (path : String) :
    (opts.allowNoExist = some false →
      limoOpen po opts path none = .error (.notFound ("File not found: " ++ path)))
    ∧ (opts.allowNoExist ≠ some false →
      limoOpen po opts path none = .ok ⟨none, none, none⟩) := by
  constructor
  · intro h
    unfold limoOpen limoRead resolveOptions
    rw [h]
    rfl
  · intro h
    unfold limoOpen limoRead resolveOptions
    rcases hb : opts.allowNoExist with _ | b
    · rfl
    · cases b
      · exact absurd hb h
      · rfl

/-- Witness for C9: with `allowNoExist := false` a missing file is a
`NotFound` construction failure; with options omitted the handle opens with
absent data and text. -/
theorem c9_witness :
    limoOpen textPO ⟨none, some false, none⟩ ("f") none
      = .error (.notFound ("File not found: " ++ "f"))
    ∧ limoOpen textPO ⟨none, none, none⟩ ("f") none = .ok ⟨none, none, none⟩ :=
  ⟨(c9_missing_file textPO ⟨none, some false, none⟩ ("f")).1 rfl,
    (c9_missing_file textPO ⟨none, none, none⟩ ("f")).2 (by simp)⟩

/-- Counterexample for C4: a present `currentValue` does not always produce a
write.  A JSON handle whose current value is `null` writes nothing at all
(first two conjuncts); and a preservation-capable adapter with original text
present but a `null` original value falls back to `stringify` rather than
`preserveFormat` (last two conjuncts, `constPF ("P")` being the adapter's
preservation function). -/
theorem c4_counterexample :
    LimoFile.dispose jvIsNull jsonPO ⟨some JValue.null, none, none⟩ none = none
    ∧ (none : Option String) ≠ some (jsonPO.stringify JValue.null)
    ∧ LimoFile.dispose jvIsNull (jsoncPO (constPF ("P")))
        ⟨some (JValue.str ("x")), some JValue.null, some ("t")⟩ none
      = some (jsonStringify (JValue.str ("x")))
    ∧ jsonStringify (JValue.str ("x")) ≠ constPF ("P") ("t") JValue.null (JValue.str ("x")) := by
  refine ⟨rfl, by simp, rfl, ?_⟩
  simp only [jsonStringify, jsonStringifyV, jsonQuote, jsonEscapeChar, constPF]
  decide

/-- C4 as amended: at disposal with a present and non-null `currentValue`,
the content written is `preserveFormat originalText originalValue
currentValue` exactly when the adapter defines `preserveFormat` and
`originalText` is present and `originalValue` is present and non-null; in
every other case the content is `stringify currentValue`. -/
theorem c4_amended {T : Type} (isNull : T → Bool) (po : ParseOptions T)
    (st : LimoFile T) (fs : Option String) (v : T)
    (hd : st.data = some v) (hnn : isNull v = false) :
    (∀ pf t old, po.preserveFormat = some pf → st.text = some t →
      st.oldData = some old → isNull old = false →
      LimoFile.dispose isNull po st fs = some (pf t old v))
    ∧ (po.preserveFormat = none ∨ st.text = none ∨ st.oldData = none ∨
        (∃ old, st.oldData = some old ∧ isNull old = true) →
      LimoFile.dispose isNull po st fs = some (po.stringify v)) := by
  constructor
  · intro pf t old hpf ht hold holdnn
    unfold LimoFile.dispose writeContent
    rw [hd, hpf, ht, hold]
    simp [hnn, holdnn]
  · intro h
    unfold LimoFile.dispose writeContent
    rw [hd]
    simp only [hnn]
    rcases h with h | h | h | ⟨old, hold, holdn⟩
    · rw [h]; simp
    · rw [h]
      rcases hpf : po.preserveFormat with _ | pf
      · simp
      · simp
    · rw [h]
      rcases hpf : po.preserveFormat with _ | pf
      · simp
      · rcases ht : st.text with _ | t <;> simp
    · rw [hold]
      rcases hpf : po.preserveFormat with _ | pf
      · simp
      · rcases ht : st.text with _ | t <;> simp [holdn]

/-- Witness for C4 as amended: the preservation path on a jsonc-style custom
adapter with text and non-null original value, and the stringify path on the
JSON adapter with no original text. -/
theorem c4_witness :
    LimoFile.dispose jvIsNull (jsoncPO (constPF ("P")))
      ⟨some (JValue.str ("x")), some (JValue.str ("o")), some ("t")⟩ none
      = some (constPF ("P") ("t") (JValue.str ("o")) (JValue.str ("x")))
    ∧ LimoFile.dispose jvIsNull jsonPO ⟨some (JValue.str ("x")), none, none⟩ none
      = some (jsonPO.stringify (JValue.str ("x"))) :=
  ⟨(c4_amended jvIsNull (jsoncPO (constPF ("P")))
      ⟨some (JValue.str ("x")), some (JValue.str ("o")), some ("t")⟩ none
      (JValue.str ("x")) rfl rfl).1 (constPF ("P")) ("t") (JValue.str ("o")) rfl rfl rfl rfl,
    (c4_amended jvIsNull jsonPO ⟨some (JValue.str ("x")), none, none⟩ none
      (JValue.str ("x")) rfl rfl).2 (Or.inl rfl)⟩

/-- Counterexample for C7: opening a missing path with default options,
setting the data to the value `null` of a null-admitting type and disposing
leaves the path nonexistent — the file does not exist with content
`stringify(null)` (or any content). -/
theorem c7_counterexample :
    absentThenSet jsonPO jvIsNull ("f") JValue.null = none
    ∧ (none : Option String) ≠ some (jsonPO.stringify JValue.null) :=
  ⟨rfl, by simp⟩

/-- C7 as amended: opening a missing path with default options, setting the
data to a non-null value `v` and disposing results in the file existing with
content exactly `stringify v`. -/
theorem c7_amended {T : Type} (po : ParseOptions T) (isNull : T → Bool)
    (path : String) (v : T) (h : isNull v = false) :
    absentThenSet po isNull path v = some (po.stringify v) := by
  unfold absentThenSet limoOpen limoRead resolveOptions LimoFile.setData
    LimoFile.dispose writeContent
  simp only [Option.getD_none]
  rcases hpf : po.preserveFormat with _ | pf
  · simp [h]
  · simp [h]

/-- Witness for C7 as amended at the text adapter. -/
theorem c7_witness :
    strIsNull ("hi") = false ∧
    absentThenSet textPO strIsNull ("f") ("hi") = some (textPO.stringify ("hi")) :=
  ⟨rfl, c7_amended textPO strIsNull ("f") ("hi") rfl⟩

/-- C2: when the file exists with non-blank content that parses but a
configured validator rejects, and `allowValidatorFailure` resolves to `false`
(also the omitted default), construction fails with the `validationFailure`
error — a constructor distinct from `parseFailure` — and no handle is
produced; and `parseFailure` only ever arises when the adapter's parse
itself failed on the file's text. -/
theorem c2_validator_gate_strict {T : Type} (po : ParseOptions T) (opts : OptionsT T)
    (path t : String) (d : T) (validate : T → Bool)
    (hblank : jsTrim t ≠ "") (hparse : po.parse t = .ok d)
    (hv : opts.validator = some validate) (hrej : validate d = false)
    (hallow : opts.allowValidatorFailure.getD false = false) :
    limoOpen po opts path (some t)
      = .error (.validationFailure
          ("Failed to parse " ++ path ++ ": Error: Invalid data: " ++ t))
    ∧ (∀ m m' : String, LimoError.validationFailure m ≠ LimoError.parseFailure m')
    ∧ (∀ (fs : Option String) (opts2 : OptionsT T) (p2 m : String),
        limoOpen po opts2 p2 fs = .error (.parseFailure m) →
        ∃ t2 e, fs = some t2 ∧ po.parse t2 = .error e) := by
  refine ⟨?_, fun m m' h => LimoError.noConfusion h, ?_⟩
  · simp [limoOpen, limoRead, resolveOptions, hblank, hparse, hv, hrej, hallow]
  · intro fs opts2 p2 m h
    rcases fs with _ | t2
    · by_cases hne : opts2.allowNoExist.getD true <;>
        simp [limoOpen, limoRead, resolveOptions, hne] at h
    · by_cases hb : jsTrim t2 = ""
      · simp [limoOpen, limoRead, resolveOptions, hb] at h
      · rcases hp : po.parse t2 with e | d2
        · exact ⟨t2, e, rfl, hp⟩
        · rcases hv2 : opts2.validator with _ | va
          · simp [limoOpen, limoRead, resolveOptions, hb, hp, hv2] at h
          · by_cases hval : va d2 <;>
              by_cases haf : opts2.allowValidatorFailure.getD false <;>
              simp [limoOpen, limoRead, resolveOptions, hb, hp, hv2, hval, haf] at h

/-- Witness for C2 on the text adapter (whose `parse` is the identity from
src/mod.ts:197) with an always-rejecting validator and options left at their
defaults. -/
theorem c2_witness :
    jsTrim ("x") ≠ "" ∧
    limoOpen textPO ⟨some (fun _ => false), none, none⟩ ("f") (some ("x"))
      = .error (.validationFailure
          ("Failed to parse " ++ "f" ++ ": Error: Invalid data: " ++ "x")) :=
  ⟨by decide,
    (c2_validator_gate_strict textPO ⟨some (fun _ => false), none, none⟩ ("f") ("x")
      ("x") (fun _ => false) (by decide) rfl rfl rfl rfl).1⟩

/-- Counterexample for C3: a file that exists with blank content opens
successfully with `currentValue` absent, although the file existed and no
validator was configured — absence is not equivalent to "file missing or
permissive validation failure". -/
theorem c3_counterexample :
    limoOpen textPO ⟨none, none, none⟩ ("f") (some (" ")) = .ok ⟨none, none, some (" ")⟩
    ∧ (some (" ") : Option String) ≠ (none : Option String)
    ∧ (⟨none, none, none⟩ : OptionsT String).validator = none :=
  ⟨rfl, by simp, rfl⟩

/-- C3 as amended: for every successfully constructed handle, `currentValue`
is absent if and only if the file did not exist (and `allowNoExist` permitted
that), or the file existed with blank content, or validation failed with
`allowValidatorFailure` resolving to `true`; every other read outcome either
yields a present value or fails construction so that no handle exists. -/
theorem c3_absent_iff {T : Type} (po : ParseOptions T) (opts : OptionsT T)
    (path : String) (fs : Option String) (st : LimoFile T)
    (h : limoOpen po opts path fs = .ok st) :
    st.data = none ↔
      fs = none
      ∨ (∃ t, fs = some t ∧ jsTrim t = "")
      ∨ (∃ t d validate, fs = some t ∧ jsTrim t ≠ "" ∧ po.parse t = .ok d ∧
          opts.validator = some validate ∧ validate d = false ∧
          opts.allowValidatorFailure.getD false = true) := by
  rcases fs with _ | t
  · by_cases hne : opts.allowNoExist.getD true <;>
      simp [limoOpen, limoRead, resolveOptions, hne] at h
    subst h
    simp
  · by_cases hb : jsTrim t = ""
    · simp [limoOpen, limoRead, resolveOptions, hb] at h
      subst h
      simp [hb]
    · rcases hp : po.parse t with e | d
      · simp [limoOpen, limoRead, resolveOptions, hb, hp] at h
      · rcases hv : opts.validator with _ | va
        · simp [limoOpen, limoRead, resolveOptions, hb, hp, hv] at h
          subst h
          simp [hb, hp, hv]
        · by_cases hval : va d
          · simp [limoOpen, limoRead, resolveOptions, hb, hp, hv, hval] at h
            subst h
            simp [hb, hp, hv, hval]
          · rw [Bool.not_eq_true] at hval
            by_cases haf : opts.allowValidatorFailure.getD false
            · simp [limoOpen, limoRead, resolveOptions, hb, hp, hv, hval, haf] at h
              subst h
              simp [hb, hp, hv, hval, haf]
            · simp [limoOpen, limoRead, resolveOptions, hb, hp, hv, hval, haf] at h

/-- Witness for C3 as amended: a handle opened on a blank file has absent
data by the second disjunct. -/
theorem c3_witness :
    limoOpen textPO ⟨none, none, none⟩ ("f") (some (" ")) = .ok ⟨none, none, some (" ")⟩
    ∧ ((⟨none, none, some (" ")⟩ : LimoFile String).data = none ↔
        (some (" ") : Option String) = none
        ∨ (∃ t, (some (" ") : Option String) = some t ∧ jsTrim t = "")
        ∨ (∃ t d validate, (some (" ") : Option String) = some t ∧ jsTrim t ≠ "" ∧
            textPO.parse t = .ok d ∧
            (⟨none, none, none⟩ : OptionsT String).validator = some validate ∧
            validate d = false ∧
            (⟨none, none, none⟩ : OptionsT String).allowValidatorFailure.getD false = true)) :=
  ⟨rfl, c3_absent_iff textPO ⟨none, none, none⟩ ("f") (some (" ")) ⟨none, none, some (" ")⟩ rfl⟩

theorem ws_not_alpha {c : Char} (h : jsWhitespaceChar c = true) : c.isAlpha = false := by
  unfold jsWhitespaceChar at h
  rw [decide_eq_true_eq] at h
  simp only [List.mem_cons, List.not_mem_nil, or_false] at h
  rcases h with rfl | rfl | rfl | rfl | rfl | rfl | rfl | rfl | rfl | rfl <;> decide

theorem alpha_not_ws {c : Char} (h : c.isAlpha = true) : jsWhitespaceChar c = false := by
  cases hw : jsWhitespaceChar c
  · rfl
  · rw [ws_not_alpha hw] at h
    exact Bool.noConfusion h

theorem jsTrim_cons_ne {c : Char} {l : List Char} (h : jsWhitespaceChar c = false) :
    jsTrim (String.mk (c :: l)) ≠ "" := by
  unfold jsTrim
  intro he
  have hdata : (((c :: l).dropWhile jsWhitespaceChar).reverse.dropWhile
      jsWhitespaceChar).reverse = [] := congrArg String.data he
  rw [List.reverse_eq_nil_iff, List.dropWhile_eq_nil_iff] at hdata
  have hc : c ∈ ((c :: l).dropWhile jsWhitespaceChar).reverse := by
    rw [List.dropWhile_cons, h]
    simp
  have hcw := hdata c hc
  rw [h] at hcw
  exact Bool.noConfusion hcw

theorem takeWhile_append_stop {p : Char → Bool} {l r : List Char} {c : Char}
    (hl : ∀ x ∈ l, p x = true) (hc : p c = false) :
    (l ++ c :: r).takeWhile p = l ∧ (l ++ c :: r).dropWhile p = c :: r := by
  induction l with
  | nil => simp [List.takeWhile_cons, List.dropWhile_cons, hc]
  | cons a l ih =>
    have ha : p a = true := hl a (by simp)
    have ihh := ih (fun x hx => hl x (by simp [hx]))
    simp [List.takeWhile_cons, List.dropWhile_cons, ha, ihh.1, ihh.2]

theorem skipWs_ws_drop {l r : List Char} (h : ∀ x ∈ l, jsonWsChar x = true) :
    skipWs (l ++ r) = skipWs r := by
  induction l with
  | nil => simp
  | cons a l ih =>
    have ha : jsonWsChar a = true := h a (by simp)
    simp only [skipWs, List.cons_append, List.dropWhile_cons, ha, if_true]
    exact ih (fun x hx => h x (by simp [hx]))

theorem skipWs_not_ws {c : Char} {l : List Char} (h : jsonWsChar c = false) :
    skipWs (c :: l) = c :: l := by
  simp [skipWs, List.dropWhile_cons, h]

theorem alpha_not_jsonWs {c : Char} (h : c.isAlpha = true) : jsonWsChar c = false := by
  cases hw : jsonWsChar c
  · rfl
  · exfalso
    unfold jsonWsChar at hw
    rw [decide_eq_true_eq] at hw
    simp only [List.mem_cons, List.not_mem_nil, or_false] at hw
    rcases hw with rfl | rfl | rfl | rfl <;> simp at h

theorem alpha_bne {c d : Char} (h : c.isAlpha = true) (hd : d.isAlpha = false) :
    (c != d) = true := by
  rw [bne_iff_ne]
  rintro rfl
  rw [h] at hd
  exact Bool.noConfusion hd

theorem alpha_ne {c d : Char} (h : c.isAlpha = true) (hd : d.isAlpha = false) :
    c ≠ d := by
  rintro rfl
  rw [h] at hd
  exact Bool.noConfusion hd

theorem escape_alpha {l : List Char} (h : ∀ x ∈ l, x.isAlpha = true) :
    l.flatMap jsonEscapeChar = l := by
  induction l with
  | nil => rfl
  | cons a l ih =>
    have ha : a.isAlpha = true := h a (by simp)
    rw [List.flatMap_cons, ih (fun x hx => h x (by simp [hx]))]
    unfold jsonEscapeChar
    rw [if_neg (alpha_ne ha (by decide)), if_neg (alpha_ne ha (by decide)),
      if_neg (alpha_ne ha (by decide)), if_neg (alpha_ne ha (by decide)),
      if_neg (alpha_ne ha (by decide))]
    rfl

theorem pQuoted_eval {s : String} {r : List Char}
    (hs : ∀ x ∈ s.data, x.isAlpha = true) :
    pQuoted ('"' :: (s.data ++ '"' :: r)) = some (s, r) := by
  have hstop := takeWhile_append_stop (p := fun c => c != '"') (r := r) (c := '"')
    (fun x hx => alpha_bne (hs x hx) (by decide)) (by decide)
  have hstep : pQuoted ('"' :: (s.data ++ '"' :: r))
      = match List.dropWhile (fun c => c != '"') (s.data ++ '"' :: r) with
        | '"' :: rest =>
          some (String.mk (List.takeWhile (fun c => c != '"') (s.data ++ '"' :: r)), rest)
        | _ => none := rfl
  rw [hstep, hstop.2, hstop.1]
  rfl

theorem safeStr_alpha {s : String} (h : safeStr s = true) :
    (∀ x ∈ s.data, x.isAlpha = true) ∧ s.data ≠ [] := by
  unfold safeStr plainAlpha at h
  simp only [Bool.and_eq_true, Bool.not_eq_true'] at h
  obtain ⟨⟨⟨⟨hne, hall⟩, _⟩, _⟩, _⟩ := h
  refine ⟨fun x hx => by simpa using (List.all_eq_true.mp hall x hx), ?_⟩
  intro hnil
  rw [String.ext_iff.mpr (show s.data = ("" : String).data from hnil)] at hne
  exact absurd hne (by decide)

theorem pJEntry_eval {k v : String} {pre r : List Char}
    (hpre : ∀ x ∈ pre, jsonWsChar x = true)
    (hk : ∀ x ∈ k.data, x.isAlpha = true) (hv : ∀ x ∈ v.data, x.isAlpha = true) :
    pJEntry (pre ++ '"' :: (k.data ++ '"' :: (':' :: ' ' :: '"' :: (v.data ++ '"' :: r))))
      = some ((k, v), r) := by
  unfold pJEntry
  have h1 : skipWs (pre ++ '"' :: (k.data ++ '"' :: (':' :: ' ' :: '"' :: (v.data ++ '"' :: r))))
      = '"' :: (k.data ++ '"' :: (':' :: ' ' :: '"' :: (v.data ++ '"' :: r))) := by
    rw [skipWs_ws_drop hpre, skipWs_not_ws (by decide)]
  have h2 : skipWs (':' :: ' ' :: '"' :: (v.data ++ '"' :: r))
      = ':' :: ' ' :: '"' :: (v.data ++ '"' :: r) := skipWs_not_ws (by decide)
  have h3 : skipWs (' ' :: '"' :: (v.data ++ '"' :: r)) = '"' :: (v.data ++ '"' :: r) := by
    rw [show (' ' :: '"' :: (v.data ++ '"' :: r)) = [' '] ++ '"' :: (v.data ++ '"' :: r) from rfl,
      skipWs_ws_drop (by decide), skipWs_not_ws (by decide)]
  simp only [h1, pQuoted_eval hk, h2, h3, pQuoted_eval hv]

theorem pJLoop_fields (m : List (String × String)) :
    ∀ (k v : String) (fuel : Nat) (pre : List Char),
    (∀ x ∈ pre, jsonWsChar x = true) →
    safeStr k = true → safeStr v = true →
    (∀ kv ∈ m, safeStr kv.1 = true ∧ safeStr kv.2 = true) →
    m.length + 1 ≤ fuel →
    pJLoop fuel (pre ++ (jsonStringifyFields 1 k (.str v)
        (m.map (fun kv => (kv.1, JValue.str kv.2))) ++ '\n' :: ['}']))
      = some ((k, v) :: m, []) := by
  induction m with
  | nil =>
    intro k v fuel pre hpre hk hv _ hfuel
    obtain ⟨hka, _⟩ := safeStr_alpha hk
    obtain ⟨hva, _⟩ := safeStr_alpha hv
    cases fuel with
    | zero => omega
    | succ f =>
      have hshape : pre ++ (jsonStringifyFields 1 k (.str v) [] ++ '\n' :: ['}'])
          = (pre ++ List.replicate 2 ' ') ++ '"' ::
            (k.data ++ '"' :: (':' :: ' ' :: '"' :: (v.data ++ '"' :: ('\n' :: ['}'])))) := by
        simp [jsonStringifyFields, jsonStringifyV, jsonQuote, escape_alpha hka,
          escape_alpha hva, List.append_assoc]
      simp only [List.map_nil]
      rw [hshape]
      have hpre2 : ∀ x ∈ pre ++ List.replicate 2 ' ', jsonWsChar x = true := by
        intro x hx
        rcases List.mem_append.mp hx with h | h
        · exact hpre x h
        · rw [List.eq_of_mem_replicate h]; decide
      simp only [pJLoop, pJEntry_eval hpre2 hka hva]
      rfl
  | cons kv2 rest ih =>
    intro k v fuel pre hpre hk hv hall hfuel
    obtain ⟨hka, _⟩ := safeStr_alpha hk
    obtain ⟨hva, _⟩ := safeStr_alpha hv
    cases fuel with
    | zero => omega
    | succ f =>
      have hshape : pre ++ (jsonStringifyFields 1 k (.str v)
            (((kv2 :: rest)).map (fun kv => (kv.1, JValue.str kv.2))) ++ '\n' :: ['}'])
          = (pre ++ List.replicate 2 ' ') ++ '"' ::
            (k.data ++ '"' :: (':' :: ' ' :: '"' :: (v.data ++ '"' ::
              (',' :: '\n' :: (jsonStringifyFields 1 kv2.1 (.str kv2.2)
                (rest.map (fun kv => (kv.1, JValue.str kv.2))) ++ '\n' :: ['}']))))) := by
        simp [jsonStringifyFields, jsonStringifyV, jsonQuote, escape_alpha hka,
          escape_alpha hva, List.append_assoc]
      rw [hshape]
      have hpre2 : ∀ x ∈ pre ++ List.replicate 2 ' ', jsonWsChar x = true := by
        intro x hx
        rcases List.mem_append.mp hx with h | h
        · exact hpre x h
        · rw [List.eq_of_mem_replicate h]; decide
      have hrec := ih kv2.1 kv2.2 f ['\n'] (by decide)
        (hall kv2 (by simp)).1 (hall kv2 (by simp)).2
        (fun kv hkv => hall kv (by simp [hkv]))
        (by simpa using Nat.lt_succ_iff.mp (by simpa using hfuel))
      simp only [pJLoop, pJEntry_eval hpre2 hka hva,
        skipWs_not_ws (show jsonWsChar ',' = false by decide)]
      simp only [List.singleton_append] at hrec
      rw [hrec]

theorem jsonFields_head (k : String) (w : JValue) (fs : List (String × JValue)) :
    ∃ T, jsonStringifyFields 1 k w fs = List.replicate 2 ' ' ++ ('"' :: T) := by
  cases fs with
  | nil =>
    refine ⟨k.data.flatMap jsonEscapeChar ++ ('"' :: ':' :: ' ' :: jsonStringifyV 1 w), ?_⟩
    simp [jsonStringifyFields, jsonQuote, List.append_assoc]
  | cons a l =>
    obtain ⟨a1, a2⟩ := a
    refine ⟨k.data.flatMap jsonEscapeChar ++ ('"' :: ':' :: ' ' :: (jsonStringifyV 1 w ++
      ',' :: '\n' :: jsonStringifyFields 1 a1 a2 l)), ?_⟩
    simp [jsonStringifyFields, jsonQuote, List.append_assoc]

theorem jsonFields_length (fs : List (String × JValue)) :
    ∀ (k : String) (w : JValue), fs.length ≤ (jsonStringifyFields 1 k w fs).length := by
  induction fs with
  | nil => intro k w; simp
  | cons a l ih =>
    intro k w
    obtain ⟨a1, a2⟩ := a
    have := ih a1 a2
    simp only [jsonStringifyFields, List.length_append, List.length_cons]
    omega

theorem jsonParse_stringify (m : List (String × String))
    (hsafe : ∀ kv ∈ m, safeStr kv.1 = true ∧ safeStr kv.2 = true) :
    jsonParseStr (jsonStringify (objOf m)) = .ok (objOf m) := by
  cases m with
  | nil =>
    have h : jsonStringify (objOf []) = String.mk ['{', '}'] := by
      simp [jsonStringify, objOf, jsonStringifyV]
    rw [h]
    rfl
  | cons kv rest =>
    have hs : jsonStringify (objOf (kv :: rest))
        = String.mk ('{' :: '\n' :: (jsonStringifyFields 1 kv.1 (.str kv.2)
            (rest.map (fun kv => (kv.1, JValue.str kv.2))) ++ '\n' :: ['}'])) := by
      simp [jsonStringify, objOf, jsonStringifyV]
    rw [hs]
    obtain ⟨T, hT⟩ := jsonFields_head kv.1 (.str kv.2)
      (rest.map (fun kv => (kv.1, JValue.str kv.2)))
    have hr : skipWs ('\n' :: (jsonStringifyFields 1 kv.1 (.str kv.2)
        (rest.map (fun kv => (kv.1, JValue.str kv.2))) ++ '\n' :: ['}']))
        = '"' :: (T ++ '\n' :: ['}']) := by
      rw [hT]
      rw [show ('\n' :: (List.replicate 2 ' ' ++ ('"' :: T) ++ '\n' :: ['}']))
          = ('\n' :: List.replicate 2 ' ') ++ '"' :: (T ++ '\n' :: ['}']) by
        simp [List.append_assoc]]
      rw [skipWs_ws_drop (by decide), skipWs_not_ws (by decide)]
    have hloop := pJLoop_fields rest kv.1 kv.2
      ((('\n' :: (jsonStringifyFields 1 kv.1 (.str kv.2)
        (rest.map (fun kv => (kv.1, JValue.str kv.2))) ++ '\n' :: ['}'])).length) + 1)
      ['\n'] (by decide) (hsafe kv (by simp)).1 (hsafe kv (by simp)).2
      (fun kv2 hkv2 => hsafe kv2 (by simp [hkv2]))
      (by
        have h1 := jsonFields_length (rest.map (fun kv => (kv.1, JValue.str kv.2)))
          kv.1 (.str kv.2)
        simp only [List.length_map] at h1
        simp only [List.length_cons, List.length_append]
        omega)
    unfold jsonParseStr
    rw [show (String.mk ('{' :: '\n' :: (jsonStringifyFields 1 kv.1 (.str kv.2)
        (rest.map (fun kv => (kv.1, JValue.str kv.2))) ++ '\n' :: ['}']))).data
        = '{' :: '\n' :: (jsonStringifyFields 1 kv.1 (.str kv.2)
        (rest.map (fun kv => (kv.1, JValue.str kv.2))) ++ '\n' :: ['}']) from rfl]
    simp only [List.singleton_append] at hloop
    simp only [skipWs_not_ws (show jsonWsChar '{' = false by decide), hr, hloop]
    rfl

theorem pTomlLoop_render (m : List (String × String)) :
    ∀ fuel : Nat, (∀ kv ∈ m, safeStr kv.1 = true ∧ safeStr kv.2 = true) →
    m.length + 1 ≤ fuel →
    pTomlLoop fuel ((m.map (fun kv => (kv.1, JValue.str kv.2))).flatMap
      (fun kv => kv.1.data ++ ' ' :: '=' :: ' ' :: (tomlRenderValue kv.2 ++ ['\n'])))
      = some m := by
  induction m with
  | nil =>
    intro fuel _ hfuel
    cases fuel with
    | zero => omega
    | succ f => rfl
  | cons kv rest ih =>
    intro fuel hall hfuel
    cases fuel with
    | zero => omega
    | succ f =>
      obtain ⟨hk, hv⟩ := hall kv (by simp)
      obtain ⟨hka, hkne⟩ := safeStr_alpha hk
      obtain ⟨hva, _⟩ := safeStr_alpha hv
      have hshape : (((kv :: rest).map (fun kv => (kv.1, JValue.str kv.2))).flatMap
          (fun kv => kv.1.data ++ ' ' :: '=' :: ' ' :: (tomlRenderValue kv.2 ++ ['\n'])))
          = kv.1.data ++ ' ' :: '=' :: ' ' :: '"' :: (kv.2.data ++ '"' :: '\n' ::
              ((rest.map (fun kv => (kv.1, JValue.str kv.2))).flatMap
                (fun kv => kv.1.data ++ ' ' :: '=' :: ' ' :: (tomlRenderValue kv.2 ++ ['\n'])))) := by
        simp [tomlRenderValue, List.append_assoc]
      rw [hshape]
      rcases hkd : kv.1.data with _ | ⟨c, cs⟩
      · exact absurd hkd hkne
      · have hstop := takeWhile_append_stop (p := Char.isAlpha) (l := c :: cs)
          (r := '=' :: ' ' :: '"' :: (kv.2.data ++ '"' :: '\n' ::
            ((rest.map (fun kv => (kv.1, JValue.str kv.2))).flatMap
              (fun kv => kv.1.data ++ ' ' :: '=' :: ' ' :: (tomlRenderValue kv.2 ++ ['\n'])))))
          (c := ' ')
          (by rw [← hkd]; exact hka) (by decide)
        have hrec := ih f (fun kv2 hkv2 => hall kv2 (by simp [hkv2])) (by
          simp only [List.length_cons] at hfuel
          omega)
        have hq : pQuoted ('"' :: (kv.2.data ++ '"' :: '\n' ::
            ((rest.map (fun kv => (kv.1, JValue.str kv.2))).flatMap
              (fun kv => kv.1.data ++ ' ' :: '=' :: ' ' :: (tomlRenderValue kv.2 ++ ['\n'])))))
            = some (kv.2, '\n' :: ((rest.map (fun kv => (kv.1, JValue.str kv.2))).flatMap
              (fun kv => kv.1.data ++ ' ' :: '=' :: ' ' :: (tomlRenderValue kv.2 ++ ['\n'])))) :=
          pQuoted_eval hva
        simp only [List.cons_append] at hstop ⊢
        simp [pTomlLoop, hstop.1, hstop.2, hq, hrec, ← hkd]
        exact hkne

theorem safeStr_reserved {s : String} (h : safeStr s = true) :
    yamlTrueWords.contains s = false ∧ yamlFalseWords.contains s = false ∧
      yamlNullWords.contains s = false := by
  unfold safeStr at h
  simp only [Bool.and_eq_true, Bool.not_eq_true'] at h
  exact ⟨h.1.1.2, h.1.2, h.2⟩

theorem yamlScalarOf_safe {s : String} (h : safeStr s = true) :
    yamlScalarOf s = .str s := by
  obtain ⟨h1, h2, h3⟩ := safeStr_reserved h
  have h1' : ¬ s ∈ yamlTrueWords := by simpa using h1
  have h2' : ¬ s ∈ yamlFalseWords := by simpa using h2
  have h3' : ¬ s ∈ yamlNullWords := by simpa using h3
  simp [yamlScalarOf, h1', h2', h3']

theorem tomlRender_length (m : List (String × String)) :
    m.length ≤ ((m.map (fun kv => (kv.1, JValue.str kv.2))).flatMap
      (fun kv => kv.1.data ++ ' ' :: '=' :: ' ' :: (tomlRenderValue kv.2 ++ ['\n']))).length := by
  induction m with
  | nil => simp
  | cons kv rest ih =>
    simp only [List.map_cons, List.flatMap_cons, List.length_append, List.length_cons]
    omega

theorem tomlParse_stringify (m : List (String × String))
    (hsafe : ∀ kv ∈ m, safeStr kv.1 = true ∧ safeStr kv.2 = true) :
    tomlParseStr (tomlStringify (objOf m)) = .ok (objOf m) := by
  have hloop := pTomlLoop_render m
    (((m.map (fun kv => (kv.1, JValue.str kv.2))).flatMap
      (fun kv => kv.1.data ++ ' ' :: '=' :: ' ' :: (tomlRenderValue kv.2 ++ ['\n']))).length + 1)
    hsafe (by have := tomlRender_length m; omega)
  simp only [tomlStringify, objOf, tomlParseStr]
  rw [hloop]

theorem alpha_yamlKeyChar {c : Char} (h : c.isAlpha = true) :
    (c != ':' && c != '\n') = true := by
  rw [alpha_bne h (by decide), alpha_bne h (by decide)]
  rfl

theorem pYamlLoop_render (m : List (String × String)) :
    ∀ fuel : Nat, (∀ kv ∈ m, safeStr kv.1 = true ∧ safeStr kv.2 = true) →
    m.length + 1 ≤ fuel →
    pYamlLoop fuel ((m.map (fun kv => (kv.1, JValue.str kv.2))).flatMap
      (fun kv => kv.1.data ++ ':' :: ' ' :: (yamlRenderValue kv.2 ++ ['\n'])))
      = some m := by
  induction m with
  | nil =>
    intro fuel _ hfuel
    cases fuel with
    | zero => omega
    | succ f => rfl
  | cons kv rest ih =>
    intro fuel hall hfuel
    cases fuel with
    | zero => omega
    | succ f =>
      obtain ⟨hk, hv⟩ := hall kv (by simp)
      obtain ⟨hka, hkne⟩ := safeStr_alpha hk
      obtain ⟨hva, _⟩ := safeStr_alpha hv
      have hshape : (((kv :: rest).map (fun kv => (kv.1, JValue.str kv.2))).flatMap
          (fun kv => kv.1.data ++ ':' :: ' ' :: (yamlRenderValue kv.2 ++ ['\n'])))
          = kv.1.data ++ ':' :: ' ' :: (kv.2.data ++ '\n' ::
              ((rest.map (fun kv => (kv.1, JValue.str kv.2))).flatMap
                (fun kv => kv.1.data ++ ':' :: ' ' :: (yamlRenderValue kv.2 ++ ['\n'])))) := by
        simp [yamlRenderValue, List.append_assoc]
      rw [hshape]
      rcases hkd : kv.1.data with _ | ⟨c, cs⟩
      · exact absurd hkd hkne
      · have hstop := takeWhile_append_stop (p := fun c => c != ':' && c != '\n')
          (l := c :: cs)
          (r := ' ' :: (kv.2.data ++ '\n' ::
            ((rest.map (fun kv => (kv.1, JValue.str kv.2))).flatMap
              (fun kv => kv.1.data ++ ':' :: ' ' :: (yamlRenderValue kv.2 ++ ['\n'])))))
          (c := ':')
          (fun x hx => alpha_yamlKeyChar (by rw [← hkd] at hx; exact hka x hx)) (by decide)
        have hstop2 := takeWhile_append_stop (p := fun c => c != '\n')
          (l := kv.2.data) (c := '\n')
          (r := ((rest.map (fun kv => (kv.1, JValue.str kv.2))).flatMap
              (fun kv => kv.1.data ++ ':' :: ' ' :: (yamlRenderValue kv.2 ++ ['\n']))))
          (fun x hx => alpha_bne (hva x hx) (by decide)) (by decide)
        have hrec := ih f (fun kv2 hkv2 => hall kv2 (by simp [hkv2])) (by
          simp only [List.length_cons] at hfuel
          omega)
        simp only [List.cons_append] at hstop ⊢
        simp [pYamlLoop, hstop.1, hstop.2, hstop2.1, hstop2.2, hrec, ← hkd]
        exact hkne

theorem yamlRender_length (m : List (String × String)) :
    m.length ≤ ((m.map (fun kv => (kv.1, JValue.str kv.2))).flatMap
      (fun kv => kv.1.data ++ ':' :: ' ' :: (yamlRenderValue kv.2 ++ ['\n']))).length := by
  induction m with
  | nil => simp
  | cons kv rest ih =>
    simp only [List.map_cons, List.flatMap_cons, List.length_append, List.length_cons]
    omega

theorem yamlScalar_map (m : List (String × String))
    (h : ∀ kv ∈ m, safeStr kv.2 = true) :
    m.map (fun kv => (kv.1, yamlScalarOf kv.2)) = m.map (fun kv => (kv.1, JValue.str kv.2)) := by
  induction m with
  | nil => rfl
  | cons kv rest ih =>
    rw [List.map_cons, List.map_cons, yamlScalarOf_safe (h kv (by simp)),
      ih (fun kv2 hkv2 => h kv2 (by simp [hkv2]))]

theorem yamlParse_stringify (m : List (String × String)) (hm : m ≠ [])
    (hsafe : ∀ kv ∈ m, safeStr kv.1 = true ∧ safeStr kv.2 = true) :
    yamlParseStr (yamlStringify (objOf m)) = .ok (objOf m) := by
  cases m with
  | nil => exact absurd rfl hm
  | cons kv rest =>
    have hloop := pYamlLoop_render (kv :: rest)
      ((((kv :: rest).map (fun kv => (kv.1, JValue.str kv.2))).flatMap
        (fun kv => kv.1.data ++ ':' :: ' ' :: (yamlRenderValue kv.2 ++ ['\n']))).length + 1)
      hsafe (by have := yamlRender_length (kv :: rest); omega)
    have hrw : yamlStringify (objOf (kv :: rest))
        = String.mk (((kv :: rest).map (fun kv => (kv.1, JValue.str kv.2))).flatMap
            (fun kv => kv.1.data ++ ':' :: ' ' :: (yamlRenderValue kv.2 ++ ['\n']))) := by
      simp [yamlStringify, objOf]
    rw [hrw]
    unfold yamlParseStr
    rw [show (String.mk (((kv :: rest).map (fun kv => (kv.1, JValue.str kv.2))).flatMap
        (fun kv => kv.1.data ++ ':' :: ' ' :: (yamlRenderValue kv.2 ++ ['\n'])))).data
        = ((kv :: rest).map (fun kv => (kv.1, JValue.str kv.2))).flatMap
          (fun kv => kv.1.data ++ ':' :: ' ' :: (yamlRenderValue kv.2 ++ ['\n'])) from rfl]
    rw [hloop]
    rw [show (objOf (kv :: rest)) = .obj ((kv :: rest).map (fun kv => (kv.1, JValue.str kv.2)))
      from rfl]
    rw [← yamlScalar_map (kv :: rest) (fun kv2 hkv2 => (hsafe kv2 hkv2).2)]

theorem absentThenSet_stringify {T : Type} (po : ParseOptions T) (isNull : T → Bool)
    (path : String) (v : T) (h : isNull v = false) :
    absentThenSet po isNull path v = some (po.stringify v) := by
  unfold absentThenSet limoOpen limoRead resolveOptions LimoFile.setData
    LimoFile.dispose writeContent
  simp only [Option.getD_none]
  rcases hpf : po.preserveFormat with _ | pf
  · simp [h]
  · simp [h]

theorem freshPipeline_eq {T : Type} (po : ParseOptions T) (isNull : T → Bool)
    (path : String) (v w : T) (hnn : isNull v = false)
    (hblank : jsTrim (po.stringify v) ≠ "")
    (hparse : po.parse (po.stringify v) = .ok w) :
    freshPipeline po isNull path v = .ok (some w) := by
  unfold freshPipeline
  rw [absentThenSet_stringify po isNull path v hnn]
  simp [limoOpen, limoRead, resolveOptions, hblank, hparse]

theorem jsonStringify_not_blank (m : List (String × String)) :
    jsTrim (jsonStringify (objOf m)) ≠ "" := by
  cases m with
  | nil =>
    rw [show jsonStringify (objOf []) = String.mk ['{', '}'] by
      simp [jsonStringify, objOf, jsonStringifyV]]
    decide
  | cons kv rest =>
    rw [show jsonStringify (objOf (kv :: rest))
        = String.mk ('{' :: '\n' :: (jsonStringifyFields 1 kv.1 (.str kv.2)
            (rest.map (fun kv => (kv.1, JValue.str kv.2))) ++ '\n' :: ['}'])) by
      simp [jsonStringify, objOf, jsonStringifyV]]
    exact jsTrim_cons_ne (by decide)

theorem tomlStringify_not_blank (m : List (String × String)) (hm : m ≠ [])
    (hsafe : ∀ kv ∈ m, safeStr kv.1 = true ∧ safeStr kv.2 = true) :
    jsTrim (tomlStringify (objOf m)) ≠ "" := by
  cases m with
  | nil => exact absurd rfl hm
  | cons kv rest =>
    obtain ⟨hka, hkne⟩ := safeStr_alpha (hsafe kv (by simp)).1
    rcases hkd : kv.1.data with _ | ⟨c, cs⟩
    · exact absurd hkd hkne
    · have hrw : tomlStringify (objOf (kv :: rest))
          = String.mk (c :: (cs ++ ' ' :: '=' :: ' ' :: (tomlRenderValue (.str kv.2) ++ ['\n'])
              ++ ((rest.map (fun kv => (kv.1, JValue.str kv.2))).flatMap
                (fun kv => kv.1.data ++ ' ' :: '=' :: ' ' :: (tomlRenderValue kv.2 ++ ['\n']))))) := by
        simp [tomlStringify, objOf, hkd, List.append_assoc]
      rw [hrw]
      refine jsTrim_cons_ne (alpha_not_ws ?_)
      exact hka c (by rw [hkd]; simp)

theorem yamlStringify_not_blank (m : List (String × String)) (hm : m ≠ [])
    (hsafe : ∀ kv ∈ m, safeStr kv.1 = true ∧ safeStr kv.2 = true) :
    jsTrim (yamlStringify (objOf m)) ≠ "" := by
  cases m with
  | nil => exact absurd rfl hm
  | cons kv rest =>
    obtain ⟨hka, hkne⟩ := safeStr_alpha (hsafe kv (by simp)).1
    rcases hkd : kv.1.data with _ | ⟨c, cs⟩
    · exact absurd hkd hkne
    · have hrw : yamlStringify (objOf (kv :: rest))
          = String.mk (c :: (cs ++ ':' :: ' ' :: (yamlRenderValue (.str kv.2) ++ ['\n'])
              ++ ((rest.map (fun kv => (kv.1, JValue.str kv.2))).flatMap
                (fun kv => kv.1.data ++ ':' :: ' ' :: (yamlRenderValue kv.2 ++ ['\n']))))) := by
        simp [yamlStringify, objOf, hkd, List.append_assoc]
      rw [hrw]
      refine jsTrim_cons_ne (alpha_not_ws ?_)
      exact hka c (by rw [hkd]; simp)

/-- Counterexample for C8: the round-trip fails when the written serialization
is blank.  With the text adapter (whose codec is the identity, straight from
src/mod.ts:197-198), writing the representable value `""` produces a file the
reopen treats as blank, so reading yields the absent value, not a value
deep-equal to `""`. -/
theorem c8_counterexample :
    freshPipeline textPO strIsNull ("f") ("") = .ok none
    ∧ textPO.stringify ("") = ""
    ∧ (Except.ok (none : Option String) : Except LimoError (Option String))
        ≠ .ok (some ("")) :=
  ⟨rfl, rfl, by simp⟩

/-- C8 as amended: for every built-in format and value of an
exactly-representable type whose serialization is not blank — modelled ranges:
nonblank strings for the text format and nonempty mappings of safe plain
strings for JSON, JSONC, TOML and YAML — writing through a fresh handle and
reopening the path yields a data value deep-equal to the one written.  The
jsonc preservation function is irrelevant on this path (a fresh handle has no
original text), so it is universally quantified. -/
theorem c8_roundtrip (s : String) (m : List (String × String))
    (pf : String → JValue → JValue → String)
    (hs : jsTrim s ≠ "") (hm : m ≠ [])
    (hnodup : (m.map Prod.fst).Nodup)
    (hsafe : ∀ kv ∈ m, safeStr kv.1 = true ∧ safeStr kv.2 = true) :
    freshPipeline textPO strIsNull ("f") s = .ok (some s)
    ∧ freshPipeline jsonPO jvIsNull ("f") (objOf m) = .ok (some (objOf m))
    ∧ freshPipeline (jsoncPO pf) jvIsNull ("f") (objOf m) = .ok (some (objOf m))
    ∧ freshPipeline tomlPO jvIsNull ("f") (objOf m) = .ok (some (objOf m))
    ∧ freshPipeline yamlPO jvIsNull ("f") (objOf m) = .ok (some (objOf m)) := by
  refine ⟨?_, ?_, ?_, ?_, ?_⟩
  · exact freshPipeline_eq textPO strIsNull ("f") s s rfl hs rfl
  · exact freshPipeline_eq jsonPO jvIsNull ("f") (objOf m) (objOf m) rfl
      (jsonStringify_not_blank m) (jsonParse_stringify m hsafe)
  · exact freshPipeline_eq (jsoncPO pf) jvIsNull ("f") (objOf m) (objOf m) rfl
      (jsonStringify_not_blank m) (jsonParse_stringify m hsafe)
  · exact freshPipeline_eq tomlPO jvIsNull ("f") (objOf m) (objOf m) rfl
      (tomlStringify_not_blank m hm hsafe) (tomlParse_stringify m hsafe)
  · exact freshPipeline_eq yamlPO jvIsNull ("f") (objOf m) (objOf m) rfl
      (yamlStringify_not_blank m hm hsafe) (yamlParse_stringify m hm hsafe)

/-- Witness for C8 as amended at `"hi"` and the mapping `hello ↦ world`. -/
theorem c8_witness :
    jsTrim ("hi") ≠ ""
    ∧ ([("hello", "world")] : List (String × String)) ≠ []
    ∧ (([("hello", "world")] : List (String × String)).map Prod.fst).Nodup
    ∧ (∀ kv ∈ ([("hello", "world")] : List (String × String)),
        safeStr kv.1 = true ∧ safeStr kv.2 = true)
    ∧ (freshPipeline textPO strIsNull ("f") ("hi") = .ok (some ("hi"))
      ∧ freshPipeline jsonPO jvIsNull ("f") (objOf [("hello", "world")])
          = .ok (some (objOf [("hello", "world")]))
      ∧ freshPipeline (jsoncPO (constPF ("x"))) jvIsNull ("f") (objOf [("hello", "world")])
          = .ok (some (objOf [("hello", "world")]))
      ∧ freshPipeline tomlPO jvIsNull ("f") (objOf [("hello", "world")])
          = .ok (some (objOf [("hello", "world")]))
      ∧ freshPipeline yamlPO jvIsNull ("f") (objOf [("hello", "world")])
          = .ok (some (objOf [("hello", "world")]))) :=
  ⟨by decide, by simp, by simp, by decide,
    c8_roundtrip ("hi") [("hello", "world")] (constPF ("x"))
      (by decide) (by simp) (by simp) (by decide)⟩

theorem lookup_append (l₁ l₂ : List (String × JValue)) (k : String) :
    List.lookup k (l₁ ++ l₂) = match List.lookup k l₁ with
      | some v => some v
      | none => List.lookup k l₂ := by
  induction l₁ with
  | nil => simp
  | cons kv rest ih =>
    obtain ⟨k', v'⟩ := kv
    rw [List.cons_append, List.lookup_cons, List.lookup_cons]
    cases h : k == k'
    · simpa using ih
    · rfl

theorem applyJEdit_comm (doc : JDoc) (e₁ e₂ : JEdit) (hk : e₁.key ≠ e₂.key)
    (hins : (e₁.isIns && e₂.isIns) = false) :
    applyJEdit (applyJEdit doc e₁) e₂ = applyJEdit (applyJEdit doc e₂) e₁ := by
  cases e₁ with
  | del k₁ =>
    cases e₂ with
    | del k₂ =>
      simp only [applyJEdit, List.filter_filter]
      congr 1
      funext e
      rw [Bool.and_comm]
    | rep k₂ v₂ =>
      simp only [applyJEdit, List.filter_map]
      congr 1
      refine List.filter_congr ?_
      intro e _
      by_cases h : e.key == k₂ <;> simp [Function.comp, h]
    | ins k₂ v₂ =>
      simp only [JEdit.key] at hk
      simp only [applyJEdit, List.filter_append]
      simp [bne_iff_ne, Ne.symm hk]
  | rep k₁ v₁ =>
    cases e₂ with
    | del k₂ =>
      simp only [applyJEdit, List.filter_map]
      congr 1
      refine List.filter_congr ?_
      intro e _
      by_cases h : e.key == k₁ <;> simp [Function.comp, h]
    | rep k₂ v₂ =>
      simp only [JEdit.key] at hk
      simp only [applyJEdit, List.map_map]
      congr 1
      funext e
      by_cases h1 : e.key == k₁ <;> by_cases h2 : e.key == k₂
      · exact absurd (Eq.trans (eq_of_beq h1).symm (eq_of_beq h2)).symm hk.symm
      · simp [Function.comp, h1, h2]
      · simp [Function.comp, h1, h2]
      · simp [Function.comp, h1, h2]
    | ins k₂ v₂ =>
      simp only [JEdit.key] at hk
      simp only [applyJEdit, List.map_append]
      simp [beq_eq_false_iff_ne, Ne.symm hk]
  | ins k₁ v₁ =>
    cases e₂ with
    | del k₂ =>
      simp only [JEdit.key] at hk
      simp only [applyJEdit, List.filter_append]
      simp [bne_iff_ne, hk]
    | rep k₂ v₂ =>
      simp only [JEdit.key] at hk
      simp only [applyJEdit, List.map_append]
      simp [beq_eq_false_iff_ne, hk]
    | ins k₂ v₂ => simp [JEdit.isIns] at hins

theorem applyJEdit_lookup_comm (doc : JDoc) (e₁ e₂ : JEdit) (hk : e₁.key ≠ e₂.key)
    (k : String) :
    List.lookup k (docToObj (applyJEdit (applyJEdit doc e₁) e₂))
      = List.lookup k (docToObj (applyJEdit (applyJEdit doc e₂) e₁)) := by
  by_cases hins : (e₁.isIns && e₂.isIns) = false
  · rw [applyJEdit_comm doc e₁ e₂ hk hins]
  · rcases e₁ with k₁ | ⟨k₁, v₁⟩ | ⟨k₁, v₁⟩ <;>
      rcases e₂ with k₂ | ⟨k₂, v₂⟩ | ⟨k₂, v₂⟩ <;>
      simp [JEdit.isIns] at hins
    simp only [JEdit.key] at hk
    simp only [applyJEdit, docToObj, List.map_append]
    rw [lookup_append, lookup_append, lookup_append, lookup_append]
    cases hdd : List.lookup k (doc.map (fun e => (e.key, e.val)))
    · cases hb1 : k == k₁ <;> cases hb2 : k == k₂ <;>
        simp [List.lookup_cons, hb1, hb2]
      exact absurd (Eq.trans (eq_of_beq hb1).symm (eq_of_beq hb2)) hk
    · simp

/-- Counterexample for C6: applying the same pair of upsert edits for two new
keys in the two possible production orders yields textually different results
— both insert at the end of the object, so the final key order follows the
map iteration order and the edits do not commute. -/
theorem c6_counterexample :
    (applyJEdits [] (jsoncModify [] ("a") (some (.str ("x")))
        ++ jsoncModify [] ("b") (some (.str ("y"))))).map JEntry.key
      ≠ (applyJEdits [] (jsoncModify [] ("b") (some (.str ("y")))
        ++ jsoncModify [] ("a") (some (.str ("x"))))).map JEntry.key := by
  decide

/-- C6 as amended: the deletion and upsert edits are computed independently
against the original document (each `jsoncModify` call receives the original
text, by construction), and edits on disjoint keys commute exactly whenever
they are not two insertions of new keys; two insertions commute only up to
the parsed mapping — on disjoint keys the looked-up value of every key is
independent of application order. -/
theorem c6_disjoint_edits_commute (doc : JDoc) (e₁ e₂ : JEdit)
    (hk : e₁.key ≠ e₂.key) :
    ((e₁.isIns && e₂.isIns) = false →
      applyJEdit (applyJEdit doc e₁) e₂ = applyJEdit (applyJEdit doc e₂) e₁)
    ∧ (∀ k, List.lookup k (docToObj (applyJEdit (applyJEdit doc e₁) e₂))
        = List.lookup k (docToObj (applyJEdit (applyJEdit doc e₂) e₁))) :=
  ⟨fun hins => applyJEdit_comm doc e₁ e₂ hk hins,
    fun k => applyJEdit_lookup_comm doc e₁ e₂ hk k⟩

/-- Witness for C6 as amended: a deletion and a replacement on distinct keys
of a two-entry document commute exactly, and two insertions agree on the
looked-up value of a key. -/
theorem c6_witness :
    (applyJEdit (applyJEdit [⟨("a"), .str ("x"), ("")⟩, ⟨("b"), .str ("y"), (" #c")⟩]
        (.del ("a"))) (.rep ("b") (.str ("z")))
      = applyJEdit (applyJEdit [⟨("a"), .str ("x"), ("")⟩, ⟨("b"), .str ("y"), (" #c")⟩]
        (.rep ("b") (.str ("z")))) (.del ("a")))
    ∧ List.lookup ("a") (docToObj (applyJEdit (applyJEdit [] (.ins ("a") (.str ("x"))))
        (.ins ("b") (.str ("y")))))
      = List.lookup ("a") (docToObj (applyJEdit (applyJEdit [] (.ins ("b") (.str ("y"))))
        (.ins ("a") (.str ("x"))))) :=
  ⟨(c6_disjoint_edits_commute [⟨("a"), .str ("x"), ("")⟩, ⟨("b"), .str ("y"), (" #c")⟩]
      (.del ("a")) (.rep ("b") (.str ("z"))) (by decide)).1 (by decide),
    (c6_disjoint_edits_commute [] (.ins ("a") (.str ("x"))) (.ins ("b") (.str ("y")))
      (by decide)).2 ("a")⟩

theorem hasOwn_iff_mem {o : JObj} {k : String} :
    hasOwn o k = true ↔ k ∈ o.map Prod.fst := by
  unfold hasOwn
  rw [List.any_eq_true]
  constructor
  · rintro ⟨kv, hmem, hbeq⟩
    exact List.mem_map.mpr ⟨kv, hmem, eq_of_beq hbeq⟩
  · rintro hmem
    obtain ⟨kv, hmem, hfst⟩ := List.mem_map.mp hmem
    exact ⟨kv, hmem, beq_iff_eq.mpr hfst⟩

theorem docHasKey_iff_mem {d : JDoc} {k : String} :
    docHasKey d k = true ↔ k ∈ d.map JEntry.key := by
  unfold docHasKey
  rw [List.any_eq_true]
  constructor
  · rintro ⟨e, hmem, hbeq⟩
    exact List.mem_map.mpr ⟨e, hmem, eq_of_beq hbeq⟩
  · rintro hmem
    obtain ⟨e, hmem, hkey⟩ := List.mem_map.mp hmem
    exact ⟨e, hmem, beq_iff_eq.mpr hkey⟩

theorem docHasKey_of_mem {d : JDoc} {e : JEntry} (h : e ∈ d) :
    docHasKey d e.key = true :=
  docHasKey_iff_mem.mpr (List.mem_map.mpr ⟨e, h, rfl⟩)

theorem lookup_eq_none_of_not_mem {l : List (String × JValue)} {k : String}
    (h : k ∉ l.map Prod.fst) : List.lookup k l = none := by
  induction l with
  | nil => rfl
  | cons kv rest ih =>
    obtain ⟨k', v'⟩ := kv
    rw [List.lookup_cons]
    cases hb : k == k'
    · exact ih (fun hm => h (by simp [hm]))
    · exact absurd (by simp [eq_of_beq hb]) h

theorem lookup_eq_some_of_mem {l : List (String × JValue)} {k : String} {v : JValue}
    (hnd : (l.map Prod.fst).Nodup) (h : (k, v) ∈ l) : List.lookup k l = some v := by
  induction l with
  | nil => exact absurd h (List.not_mem_nil _)
  | cons kv rest ih =>
    obtain ⟨k', v'⟩ := kv
    rw [List.lookup_cons]
    rw [List.map_cons, List.nodup_cons] at hnd
    rcases List.mem_cons.mp h with heq | hmem
    · injection heq with hk hv
      subst hk
      subst hv
      simp [beq_self_eq_true]
    · cases hb : k == k'
      · exact ih hnd.2 hmem
      · exact absurd ((eq_of_beq hb) ▸ List.mem_map.mpr ⟨(k, v), hmem, rfl⟩) hnd.1

theorem delEdits_eq (doc : JDoc) (new : JObj) (ks : List String) :
    ks.flatMap (fun k => if hasOwn new k then [] else jsoncModify doc k none)
      = (ks.filter (fun k => !hasOwn new k && docHasKey doc k)).map JEdit.del := by
  induction ks with
  | nil => rfl
  | cons k rest ih =>
    rw [List.flatMap_cons, List.filter_cons, ih]
    by_cases h1 : hasOwn new k
    · simp [h1]
    · rw [Bool.not_eq_true] at h1
      by_cases h2 : docHasKey doc k
      · simp [jsoncModify, h1, h2]
      · rw [Bool.not_eq_true] at h2
        simp [jsoncModify, h1, h2]

theorem applyJEdits_dels (ds : List String) :
    ∀ D : JDoc, applyJEdits D (ds.map JEdit.del)
      = D.filter (fun e => !(ds.contains e.key)) := by
  induction ds with
  | nil =>
    intro D
    simp [applyJEdits]
  | cons d rest ih =>
    intro D
    rw [List.map_cons]
    rw [show applyJEdits D (JEdit.del d :: rest.map JEdit.del)
        = applyJEdits (applyJEdit D (.del d)) (rest.map JEdit.del) from rfl]
    rw [ih]
    simp only [applyJEdit, List.filter_filter]
    congr 1
    funext e
    rw [List.contains_cons]
    cases hb : e.key == d <;> cases hc : rest.contains e.key <;>
      simp [hb, hc, bne]

theorem dels_result (doc : JDoc) (new : JObj) :
    applyJEdits doc (((doc.map JEntry.key).filter
        (fun k => !hasOwn new k && docHasKey doc k)).map JEdit.del)
      = doc.filter (fun e => hasOwn new e.key) := by
  rw [applyJEdits_dels]
  refine List.filter_congr ?_
  intro e he
  cases h1 : hasOwn new e.key
  · have hcont : ((doc.map JEntry.key).filter
        (fun k => !hasOwn new k && docHasKey doc k)).contains e.key = true := by
      rw [List.elem_iff, List.mem_filter]
      exact ⟨List.mem_map.mpr ⟨e, he, rfl⟩, by simp [h1, docHasKey_of_mem he]⟩
    rw [hcont]
    rfl
  · have hcont : ((doc.map JEntry.key).filter
        (fun k => !hasOwn new k && docHasKey doc k)).contains e.key = false := by
      rw [Bool.eq_false_iff]
      intro hc
      rw [List.elem_iff, List.mem_filter] at hc
      rw [h1] at hc
      simpa using hc.2
    rw [hcont]
    rfl

theorem applyJEdits_append (D : JDoc) (a b : List JEdit) :
    applyJEdits D (a ++ b) = applyJEdits (applyJEdits D a) b :=
  List.foldl_append _ _ _ _

theorem applyJEdits_ups (doc : JDoc) :
    ∀ new : JObj, (new.map Prod.fst).Nodup → ∀ D : JDoc,
    applyJEdits D (new.flatMap (fun kv => jsoncModify doc kv.1 (some kv.2)))
      = D.map (fun e => if docHasKey doc e.key then
            (match List.lookup e.key new with
              | some v => { e with val := v }
              | none => e)
          else e)
        ++ (new.filter (fun kv => !docHasKey doc kv.1)).map
            (fun kv => (⟨kv.1, kv.2, ("")⟩ : JEntry)) := by
  intro new
  induction new with
  | nil =>
    intro _ D
    simp [applyJEdits, List.lookup_nil]
  | cons kv rest ih =>
    intro hnd D
    obtain ⟨k, v⟩ := kv
    rw [List.map_cons, List.nodup_cons] at hnd
    obtain ⟨hknotin, hndrest⟩ := hnd
    rw [List.flatMap_cons, applyJEdits_append]
    by_cases hdk : docHasKey doc k
    · rw [show jsoncModify doc k (some v) = [.rep k v] by simp [jsoncModify, hdk]]
      rw [show applyJEdits D [JEdit.rep k v] = applyJEdit D (.rep k v) from rfl]
      rw [ih hndrest (applyJEdit D (.rep k v))]
      congr 1
      · simp only [applyJEdit, List.map_map]
        refine List.map_congr_left ?_
        intro e _
        by_cases hek : e.key == k
        · have hekk : e.key = k := eq_of_beq hek
          simp [Function.comp, hek, hekk, hdk, List.lookup_cons,
            lookup_eq_none_of_not_mem hknotin]
        · simp [Function.comp, hek, List.lookup_cons]
      · rw [List.filter_cons]
        simp [hdk]
    · rw [Bool.not_eq_true] at hdk
      rw [show jsoncModify doc k (some v) = [.ins k v] by simp [jsoncModify, hdk]]
      rw [show applyJEdits D [JEdit.ins k v] = applyJEdit D (.ins k v) from rfl]
      rw [ih hndrest (applyJEdit D (.ins k v))]
      simp only [applyJEdit, List.map_append]
      rw [show (([(⟨k, v, ("")⟩ : JEntry)]).map (fun e => if docHasKey doc e.key then
            (match List.lookup e.key rest with
              | some v => { e with val := v }
              | none => e)
          else e)) = [⟨k, v, ("")⟩] by simp [hdk]]
      rw [List.filter_cons]
      simp only [hdk, Bool.not_false, if_true, List.map_cons]
      rw [List.append_assoc, List.singleton_append]
      congr 1
      refine List.map_congr_left ?_
      intro e _
      by_cases hek : e.key == k
      · have hekk : e.key = k := eq_of_beq hek
        simp [hekk, hdk]
      · simp [List.lookup_cons, hek]

theorem preserve_closed (doc : JDoc) (new : JObj) (hnd : (new.map Prod.fst).Nodup) :
    jsoncPreserveFormat doc (docToObj doc) new
      = (doc.filter (fun e => hasOwn new e.key)).map (fun e =>
          if docHasKey doc e.key then
            (match List.lookup e.key new with
              | some v => { e with val := v }
              | none => e)
          else e)
        ++ (new.filter (fun kv => !docHasKey doc kv.1)).map
            (fun kv => (⟨kv.1, kv.2, ("")⟩ : JEntry)) := by
  have hkeys : objKeys (docToObj doc) = doc.map JEntry.key := by
    simp [objKeys, docToObj]
  simp only [jsoncPreserveFormat, jsoncFormatPass, hkeys]
  rw [delEdits_eq doc new (doc.map JEntry.key), applyJEdits_append, dels_result,
    applyJEdits_ups doc new hnd]

theorem preserve_keys (doc : JDoc) (new : JObj) (hnd : (new.map Prod.fst).Nodup) :
    (jsoncPreserveFormat doc (docToObj doc) new).map JEntry.key
      = (doc.map JEntry.key).filter (fun k => hasOwn new k)
        ++ (new.map Prod.fst).filter (fun k => !docHasKey doc k) := by
  rw [preserve_closed doc new hnd, List.map_append, List.map_map, List.map_map]
  congr 1
  · have h1 : (doc.filter (fun e => hasOwn new e.key)).map
        (JEntry.key ∘ (fun e => if docHasKey doc e.key then
            (match List.lookup e.key new with
              | some v => { e with val := v }
              | none => e)
          else e))
        = (doc.filter (fun e => hasOwn new e.key)).map JEntry.key := by
      refine List.map_congr_left ?_
      intro e _
      by_cases h : docHasKey doc e.key
      · cases hl : List.lookup e.key new <;> simp [Function.comp, h, hl]
      · simp [Function.comp, h]
    rw [h1, List.filter_map]
    rfl
  · have h2 : (new.filter (fun kv => !docHasKey doc kv.1)).map
        (JEntry.key ∘ (fun kv => (⟨kv.1, kv.2, ("")⟩ : JEntry)))
        = (new.filter (fun kv => !docHasKey doc kv.1)).map Prod.fst := by
      refine List.map_congr_left ?_
      intro kv _
      rfl
    rw [h2, List.filter_map]
    rfl

theorem preserve_keys_nodup (doc : JDoc) (new : JObj)
    (hdocnd : (doc.map JEntry.key).Nodup) (hnewnd : (new.map Prod.fst).Nodup) :
    ((jsoncPreserveFormat doc (docToObj doc) new).map JEntry.key).Nodup := by
  rw [preserve_keys doc new hnewnd, List.nodup_append]
  refine ⟨List.Nodup.sublist (List.filter_sublist _) hdocnd,
    List.Nodup.sublist (List.filter_sublist _) hnewnd, ?_⟩
  intro x hx1 hx2
  have hd : docHasKey doc x = true := docHasKey_iff_mem.mpr (List.mem_filter.mp hx1).1
  have hnd2 : (!docHasKey doc x) = true := (List.mem_filter.mp hx2).2
  rw [hd] at hnd2
  simp at hnd2

theorem docToObj_fst (R : JDoc) : (docToObj R).map Prod.fst = R.map JEntry.key := by
  rw [docToObj, List.map_map]
  rfl

/-- Counterexample for C1: the contract fails when `oldValue` is not the parse
of `oldText`.  With old text holding key `a`, empty `oldValue` and empty
`newValue`, no edit is emitted, so the output still contains `a` although
`newValue` has no keys — re-parsing is not semantically equivalent to
`newValue`. -/
theorem c1_counterexample :
    (List.lookup ("a") (docToObj (jsoncPreserveFormat
        [⟨("a"), .str ("x"), ("")⟩] [] []))).isSome = true
    ∧ List.lookup ("a") ([] : JObj) = none :=
  ⟨rfl, rfl⟩

/-- C1 as amended: for every old text (a well-formed top-level object with
unique keys), with the old value equal to the parse of the old text and any
new top-level mapping, the preservation output (i) re-parses to a mapping
that looks up every key exactly as `newValue` does, (ii) keeps every entry —
value, comments and attached trivia — whose key is unchanged between old and
new value, and (iii) keeps the original relative ordering: its key sequence
is the old text's keys surviving in `newValue`, in order, followed by the
newly added keys in `newValue` order (whitespace is subject to the final
formatting normalization pass, which this model abstracts). -/
theorem c1_preserve_contract (doc : JDoc) (new : JObj)
    (hdocnd : (doc.map JEntry.key).Nodup) (hnewnd : (new.map Prod.fst).Nodup) :
    (∀ k, List.lookup k (docToObj (jsoncPreserveFormat doc (docToObj doc) new))
        = List.lookup k new)
    ∧ (∀ e ∈ doc, List.lookup e.key new = some e.val →
        e ∈ jsoncPreserveFormat doc (docToObj doc) new)
    ∧ (jsoncPreserveFormat doc (docToObj doc) new).map JEntry.key
        = (doc.map JEntry.key).filter (fun k => hasOwn new k)
          ++ (new.map Prod.fst).filter (fun k => !docHasKey doc k) := by
  have hRnd := preserve_keys_nodup doc new hdocnd hnewnd
  have hclosed := preserve_closed doc new hnewnd
  refine ⟨?_, ?_, preserve_keys doc new hnewnd⟩
  · intro k
    have hRndObj : ((docToObj (jsoncPreserveFormat doc (docToObj doc) new)).map
        Prod.fst).Nodup := by
      rw [docToObj_fst]
      exact hRnd
    by_cases hHas : hasOwn new k = true
    · obtain ⟨kv, hkvmem, hkvfst⟩ := List.mem_map.mp (hasOwn_iff_mem.mp hHas)
      have hkvpair : (k, kv.2) ∈ new := by
        rw [← hkvfst]
        exact hkvmem
      have hlknew : List.lookup k new = some kv.2 := lookup_eq_some_of_mem hnewnd hkvpair
      rw [hlknew]
      apply lookup_eq_some_of_mem hRndObj
      rw [docToObj]
      by_cases hDoc : docHasKey doc k = true
      · obtain ⟨e₀, he₀mem, he₀key⟩ := List.mem_map.mp (docHasKey_iff_mem.mp hDoc)
        have hd₀ : docHasKey doc e₀.key = true := by rw [he₀key]; exact hDoc
        have hl₀ : List.lookup e₀.key new = some kv.2 := by rw [he₀key]; exact hlknew
        refine List.mem_map.mpr ⟨{ e₀ with val := kv.2 }, ?_, by simp [he₀key]⟩
        rw [hclosed]
        refine List.mem_append.mpr (Or.inl ?_)
        refine List.mem_map.mpr ⟨e₀,
          List.mem_filter.mpr ⟨he₀mem, by rw [he₀key]; exact hHas⟩, ?_⟩
        simp [hd₀, hl₀]
      · rw [Bool.not_eq_true] at hDoc
        refine List.mem_map.mpr ⟨⟨k, kv.2, ("")⟩, ?_, rfl⟩
        rw [hclosed]
        refine List.mem_append.mpr (Or.inr ?_)
        refine List.mem_map.mpr ⟨(k, kv.2), ?_, rfl⟩
        exact List.mem_filter.mpr ⟨hkvpair, by simp [hDoc]⟩
    · rw [Bool.not_eq_true] at hHas
      have hknotin : k ∉ new.map Prod.fst := fun hm => by
        rw [hasOwn_iff_mem.mpr hm] at hHas
        exact Bool.noConfusion hHas
      rw [lookup_eq_none_of_not_mem hknotin]
      apply lookup_eq_none_of_not_mem
      rw [docToObj_fst, preserve_keys doc new hnewnd]
      intro hmem
      rcases List.mem_append.mp hmem with h | h
      · have h2 := (List.mem_filter.mp h).2
        rw [hHas] at h2
        exact Bool.noConfusion h2
      · exact hknotin (List.mem_filter.mp h).1
  · intro e he hlk
    have hHas : hasOwn new e.key = true := by
      by_contra hc
      rw [Bool.not_eq_true] at hc
      have hnm : e.key ∉ new.map Prod.fst := fun hm => by
        rw [hasOwn_iff_mem.mpr hm] at hc
        exact Bool.noConfusion hc
      rw [lookup_eq_none_of_not_mem hnm] at hlk
      exact Option.noConfusion hlk
    rw [hclosed]
    refine List.mem_append.mpr (Or.inl ?_)
    refine List.mem_map.mpr ⟨e, List.mem_filter.mpr ⟨he, hHas⟩, ?_⟩
    simp [docHasKey_of_mem he, hlk]

/-- Witness for C1 as amended on a two-entry document (`keep` unchanged with
an attached comment, `old` deleted) and a new mapping adding `new`. -/
theorem c1_witness :
    List.lookup ("keep") (docToObj (jsoncPreserveFormat
        [⟨("keep"), .str ("v"), (" // c")⟩, ⟨("old"), .str ("x"), ("")⟩]
        (docToObj [⟨("keep"), .str ("v"), (" // c")⟩, ⟨("old"), .str ("x"), ("")⟩])
        [(("keep"), .str ("v")), (("new"), .str ("y"))]))
      = List.lookup ("keep") [(("keep"), JValue.str ("v")), (("new"), JValue.str ("y"))]
    ∧ (⟨("keep"), .str ("v"), (" // c")⟩ : JEntry) ∈ jsoncPreserveFormat
        [⟨("keep"), .str ("v"), (" // c")⟩, ⟨("old"), .str ("x"), ("")⟩]
        (docToObj [⟨("keep"), .str ("v"), (" // c")⟩, ⟨("old"), .str ("x"), ("")⟩])
        [(("keep"), .str ("v")), (("new"), .str ("y"))]
    ∧ (jsoncPreserveFormat
        [⟨("keep"), .str ("v"), (" // c")⟩, ⟨("old"), .str ("x"), ("")⟩]
        (docToObj [⟨("keep"), .str ("v"), (" // c")⟩, ⟨("old"), .str ("x"), ("")⟩])
        [(("keep"), .str ("v")), (("new"), .str ("y"))]).map JEntry.key
      = ([⟨("keep"), .str ("v"), (" // c")⟩, ⟨("old"), .str ("x"), ("")⟩].map
          JEntry.key).filter
            (fun k => hasOwn [(("keep"), JValue.str ("v")), (("new"), JValue.str ("y"))] k)
        ++ ([(("keep"), JValue.str ("v")), (("new"), JValue.str ("y"))].map
            Prod.fst).filter
              (fun k => !docHasKey [⟨("keep"), .str ("v"), (" // c")⟩,
                ⟨("old"), .str ("x"), ("")⟩] k) :=
  ⟨(c1_preserve_contract
      [⟨("keep"), .str ("v"), (" // c")⟩, ⟨("old"), .str ("x"), ("")⟩]
      [(("keep"), .str ("v")), (("new"), .str ("y"))]
      (by decide) (by decide)).1 ("keep"),
    (c1_preserve_contract
      [⟨("keep"), .str ("v"), (" // c")⟩, ⟨("old"), .str ("x"), ("")⟩]
      [(("keep"), .str ("v")), (("new"), .str ("y"))]
      (by decide) (by decide)).2.1 ⟨("keep"), .str ("v"), (" // c")⟩
      (List.mem_cons_self _ _) rfl,
    (c1_preserve_contract
      [⟨("keep"), .str ("v"), (" // c")⟩, ⟨("old"), .str ("x"), ("")⟩]
      [(("keep"), .str ("v")), (("new"), .str ("y"))]
      (by decide) (by decide)).2.2⟩
